import Mathlib

/-!
Verification of the SPEAD protocol core (receive-stream dispatch, send-side
descriptor encoding) against its natural-language specification.

The receive-stream logic is translated from `src/recv_stream.cpp`; the
send-side encoding checks from `src/send_heap.cpp`.  The in-progress receive
heap (`recv_heap.cpp`), the packet decoder (`recv_packet.cpp`) and the shared
constant definitions (`common_defines.h`) are not among the provided sources,
so those parts are modelled from the specification, as marked on each
definition.
-/

namespace Spead

/-- Modelled from the spec: `common_defines.h` is not among the sources.
The flavour's item-pointer width is 64 bits ("item-pointer width in bits
(typically 64)"), so `sizeof(item_pointer_t)` is 8 bytes. -/
def itemPointerBytes : Nat := 8

/-- Modelled from the spec: bug-compatibility bit for `DESCRIPTOR_WIDTHS`
("force 4-byte format fields and 8-byte shape fields regardless of flavour").
The numeric mask value is an implementation choice per the spec. -/
def BUG_COMPAT_DESCRIPTOR_WIDTHS : Nat := 1

/-- Modelled from the spec: bug-compatibility bit for `SHAPE_BIT_1`
("variable-shape dimensions marked by bit 1 instead of bit 0"). -/
def BUG_COMPAT_SHAPE_BIT_1 : Nat := 2

/-- Modelled from the spec: reserved item ID `HEAP_CNT = 0x01`. -/
def HEAP_CNT_ID : Nat := 1

/-- Modelled from the spec: reserved item ID `HEAP_LENGTH = 0x02`. -/
def HEAP_LENGTH_ID : Nat := 2

/-- Modelled from the spec: reserved item ID `PAYLOAD_OFFSET = 0x03`. -/
def PAYLOAD_OFFSET_ID : Nat := 3

/-- Modelled from the spec: reserved item ID `PAYLOAD_LENGTH = 0x04`. -/
def PAYLOAD_LENGTH_ID : Nat := 4

/-- Modelled from the spec: reserved item ID `STREAM_CTRL = 0x06`
("carries an end-of-stream marker"). -/
def STREAM_CTRL_ID : Nat := 6

/-- Modelled from the spec: the `STREAM_CTRL` value that marks end-of-stream
(the spec fixes only that such a value exists; SPEAD uses 2). -/
def CTRL_STREAM_STOP : Nat := 2

/-- A decoded item pointer: immediate flag, item ID, value
(spec: "a 1-bit immediate flag, an item ID ..., and a value"). -/
structure ItemPointer where
  immediate : Bool
  id : Nat
  value : Nat
deriving DecidableEq

/-- A decoded packet header, as produced by the packet codec (spec §4.1,
"Packet header (decoded form)"): heap count, heap length (−1 for unknown),
payload offset and length, flavour parameter, the non-standard item pointers,
and the payload byte slice. -/
structure PacketHeader where
  heap_cnt : Int
  heap_length : Int
  payload_offset : Int
  payload_length : Int
  heap_address_bits : Int
  pointers : List ItemPointer
  payload : List Nat
deriving DecidableEq

/-- Modelled from the spec: `recv_heap.cpp` is not among the sources; fields
follow `recv_heap.h` (heap count, heap length −1 for unknown, received-length
counter, end-of-stream flag, minimum-length lower bound, locked flavour −1
until the first packet, bug mask, accumulated non-standard item pointers,
duplicate-detection set of payload offsets, memory pool).  The raw payload
byte buffer is not modelled: its contents never influence the control flow
the claims are about. -/
structure RecvHeap where
  heap_cnt : Int
  heap_length : Int := -1
  received_length : Int := 0
  end_of_stream : Bool := false
  min_length : Int := 0
  heap_address_bits : Int := -1
  bug_compat : Nat
  pointers : List ItemPointer := []
  packet_offsets : List Int := []
  pool : Option Nat := none
deriving DecidableEq

/-- Modelled from the spec: true when the packet carried a `STREAM_CTRL`
item with the end-of-stream value. -/
def packetEOS (p : PacketHeader) : Bool :=
  p.pointers.any fun ptr =>
    ptr.immediate && ptr.id == STREAM_CTRL_ID && ptr.value == CTRL_STREAM_STOP

/-- Modelled from the spec: the largest non-immediate item-pointer address in
the packet (used for the heap's minimum-length lower bound). -/
def maxPointerAddress (ptrs : List ItemPointer) : Int :=
  (ptrs.filterMap fun ptr =>
    if ptr.immediate then none else some (ptr.value : Int)).foldl max 0

/-- Modelled from the spec: `recv::heap::add_packet` (`recv_heap.cpp` is not
among the sources).  Rejection reasons, per spec §4.4: wrong heap count;
flavour already locked and different; a previously observed `HEAP_LENGTH`
disagreeing with the new packet, or the packet's payload range exceeding the
locked heap length; duplicate payload offset.  Rejection leaves the heap
unchanged (`none`).  On acceptance the length, flavour, received counter,
minimum-length bound, pointers, offset set and end-of-stream flag are
updated as the spec describes. -/
def RecvHeap.addPacket (h : RecvHeap) (p : PacketHeader) : Option RecvHeap :=
  if p.heap_cnt ≠ h.heap_cnt then none
  else if 0 ≤ h.heap_address_bits ∧ p.heap_address_bits ≠ h.heap_address_bits then none
  else if 0 ≤ h.heap_length ∧ 0 ≤ p.heap_length ∧ p.heap_length ≠ h.heap_length then none
  else
    let newLen : Int := if 0 ≤ h.heap_length then h.heap_length else p.heap_length
    if 0 ≤ newLen ∧ newLen < p.payload_offset + p.payload_length then none
    else if p.payload_offset ∈ h.packet_offsets then none
    else some { h with
      heap_length := newLen
      heap_address_bits := p.heap_address_bits
      received_length := h.received_length + p.payload_length
      min_length := max (max h.min_length (p.payload_offset + p.payload_length))
                        (maxPointerAddress p.pointers)
      pointers := h.pointers ++ p.pointers
      packet_offsets := p.payload_offset :: h.packet_offsets
      end_of_stream := h.end_of_stream || packetEOS p }

/-- Modelled from the spec: `is_complete` is
`heap_length ≥ 0 ∧ received_length == heap_length`. -/
def RecvHeap.isComplete (h : RecvHeap) : Bool :=
  decide (0 ≤ h.heap_length ∧ h.received_length = h.heap_length)

/-- Modelled from the spec: `is_end_of_stream` returns the end-of-stream flag. -/
def RecvHeap.isEndOfStream (h : RecvHeap) : Bool :=
  h.end_of_stream

/-- State of `spead::recv::stream_base` (`recv_stream.h`): capacity cap,
live heaps ordered as in the deque, stopped flag, bug mask, memory pool. -/
structure StreamBase where
  max_heaps : Nat
  heaps : List RecvHeap := []
  stopped : Bool := false
  bug_compat : Nat
  pool : Option Nat := none
deriving DecidableEq

/-- `stream_base::stream_base(bug_compat, max_heaps)`. -/
def mkStreamBase (bug_compat : Nat) (max_heaps : Nat) : StreamBase :=
  { max_heaps := max_heaps, bug_compat := bug_compat }

/-- The fresh-heap construction in `stream_base::add_packet`
(`recv_stream.cpp` lines 65–66): `heap h(packet.heap_cnt, bug_compat);
h.set_mempool(pool);`. -/
def StreamBase.newHeapFor (s : StreamBase) (p : PacketHeader) : RecvHeap :=
  { heap_cnt := p.heap_cnt, bug_compat := s.bug_compat, pool := s.pool }

/-- The `insert_before` computation of the scan loop in
`stream_base::add_packet`: starting from the front, `insert_before` is moved
past each heap whose count is below the packet's; the loop breaks at a
matching count.  `idx` is the position of the current element, `acc` the
iterator value accumulated so far. -/
def insertPosAux (c : Int) : List RecvHeap → Nat → Nat → Nat
  | [], _, acc => acc
  | h :: t, idx, acc =>
    if h.heap_cnt = c then acc
    else insertPosAux c t (idx + 1) (if h.heap_cnt < c then idx + 1 else acc)

/-- The final value of `insert_before` after the scan loop. -/
def insertPos (l : List RecvHeap) (c : Int) : Nat :=
  insertPosAux c l 0 0

/-- `std::deque::insert` at a given position. -/
def insertAt : Nat → RecvHeap → List RecvHeap → List RecvHeap
  | 0, a, l => a :: l
  | _ + 1, a, [] => [a]
  | n + 1, a, x :: xs => x :: insertAt n a xs

/-- The matching-heap phase of `stream_base::add_packet` (the `for` loop,
`recv_stream.cpp` lines 40–60): find the first live heap with the packet's
count; on a match delegate the packet, and if the heap became complete pass
it to `heap_ready` and erase it.  Returns `none` when no heap matches,
otherwise the updated deque, the heaps passed to `heap_ready`, the `result`
flag and the `end_of_stream` flag. -/
def scanMatch (p : PacketHeader) : List RecvHeap → Option (List RecvHeap × List RecvHeap × Bool × Bool)
  | [] => none
  | h :: t =>
    if h.heap_cnt = p.heap_cnt then
      match h.addPacket p with
      | some h' =>
        if h'.isComplete then some (t, [h'], true, h'.isEndOfStream)
        else some (h' :: t, [], true, h'.isEndOfStream)
      | none => some (h :: t, [], false, false)
    else
      match scanMatch p t with
      | some (t', em, r, e) => some (h :: t', em, r, e)
      | none => none

/-- Result of the dispatch phase of `add_packet`, before the end-of-stream
check: new state, heaps passed to `heap_ready`, the returned flag, and the
local `end_of_stream` variable. -/
structure CoreResult where
  state : StreamBase
  emitted : List RecvHeap
  result : Bool
  eos : Bool
deriving DecidableEq

/-- `stream_base::add_packet` without the final end-of-stream `stop()`
(`recv_stream.cpp` lines 32–86): either the scan loop found a matching heap,
or a new heap is constructed for the packet; an immediately complete new heap
is passed to `heap_ready` without insertion, otherwise it is inserted at
`insert_before`, and if the deque then exceeds `max_heaps` the front heap is
passed to `heap_ready` and popped. -/
def StreamBase.addPacketCore (s : StreamBase) (p : PacketHeader) : CoreResult :=
  match scanMatch p s.heaps with
  | some (hs, em, r, e) => ⟨{ s with heaps := hs }, em, r, e⟩
  | none =>
    match (s.newHeapFor p).addPacket p with
    | none => ⟨s, [], false, false⟩
    | some h' =>
      if h'.isComplete then ⟨s, [h'], true, h'.isEndOfStream⟩
      else
        let hs := insertAt (insertPos s.heaps p.heap_cnt) h' s.heaps
        if s.max_heaps < hs.length then
          ⟨{ s with heaps := hs.tail }, hs.take 1, true, h'.isEndOfStream⟩
        else
          ⟨{ s with heaps := hs }, [], true, h'.isEndOfStream⟩

/-- `stream_base::flush` (`recv_stream.cpp` lines 92–99): pass every live
heap to `heap_ready` in deque order and clear the collection.  Returns the
new state and the emitted heaps. -/
def StreamBase.flush (s : StreamBase) : StreamBase × List RecvHeap :=
  ({ s with heaps := [] }, s.heaps)

/-- `stream_base::stop` (`recv_stream.cpp` lines 101–105): set the stopped
flag, then flush. -/
def StreamBase.stop (s : StreamBase) : StreamBase × List RecvHeap :=
  StreamBase.flush { s with stopped := true }

/-- `stream_base::add_packet` (`recv_stream.cpp` lines 32–90): the dispatch
phase followed by `stop()` when a heap reported end-of-stream.  Returns the
new state, all heaps passed to `heap_ready` in call order, and the boolean
result. -/
def StreamBase.addPacket (s : StreamBase) (p : PacketHeader) : StreamBase × List RecvHeap × Bool :=
  let c := s.addPacketCore p
  if c.eos then
    let f := c.state.stop
    (f.1, c.emitted ++ f.2, c.result)
  else (c.state, c.emitted, c.result)

/-- `stream_base::set_max_heaps` (`recv_stream.cpp` lines 22–25). -/
def StreamBase.setMaxHeaps (s : StreamBase) (n : Nat) : StreamBase :=
  { s with max_heaps := n }

/-- `stream_base::set_mempool` (`recv_stream.cpp` lines 27–30). -/
def StreamBase.setMempool (s : StreamBase) (q : Option Nat) : StreamBase :=
  { s with pool := q }

/-- One public `stream_base` operation. -/
inductive Op where
  | packet (p : PacketHeader)
  | setMaxHeaps (n : Nat)
  | setMempool (q : Option Nat)
  | flush
  | stop
deriving DecidableEq

/-- Apply one operation; returns the new state and the heaps passed to
`heap_ready` during the operation. -/
def StreamBase.applyOp (s : StreamBase) : Op → StreamBase × List RecvHeap
  | .packet p => let r := s.addPacket p; (r.1, r.2.1)
  | .setMaxHeaps n => (s.setMaxHeaps n, [])
  | .setMempool q => (s.setMempool q, [])
  | .flush => s.flush
  | .stop => s.stop

/-- Apply a sequence of operations, collecting all `heap_ready` emissions. -/
def StreamBase.run (s : StreamBase) : List Op → StreamBase × List RecvHeap
  | [] => (s, [])
  | op :: ops =>
    let r := s.applyOp op
    let r2 := r.1.run ops
    (r2.1, r.2 ++ r2.2)

/-- The live heap counts, in deque order. -/
def heapCnts (l : List RecvHeap) : List Int :=
  l.map (·.heap_cnt)

/-- The live collection's heap counts are strictly ascending. -/
def sortedCnts (l : List RecvHeap) : Prop :=
  (heapCnts l).Pairwise (· < ·)

instance (l : List RecvHeap) : Decidable (sortedCnts l) := by
  unfold sortedCnts
  infer_instance

/-- `store_bytes_be(ptr, len, value)` (`send_heap.cpp` lines 31–37): the
`len` bytes written at `ptr`, the big-endian encoding of `value`. -/
def store_bytes_be (len : Nat) (value : Nat) : List Nat :=
  (List.range len).map fun i => (value >>> (8 * (len - 1 - i))) % 256

/-- Big-endian byte-list decoding, used to state that the encoded bytes hold
the intended value. -/
def bytesToNatBE (l : List Nat) : Nat :=
  l.foldl (fun a b => a * 256 + b % 256) 0

/-- `field_size` in `encode_descriptor` (`send_heap.cpp` line 50). -/
def field_size (bug_compat : Nat) (heap_address_bits : Nat) : Nat :=
  if bug_compat &&& BUG_COMPAT_DESCRIPTOR_WIDTHS ≠ 0 then 4
  else itemPointerBytes + 1 - heap_address_bits / 8

/-- `shape_size` in `encode_descriptor` (`send_heap.cpp` line 51). -/
def shape_size (bug_compat : Nat) (heap_address_bits : Nat) : Nat :=
  if bug_compat &&& BUG_COMPAT_DESCRIPTOR_WIDTHS ≠ 0 then 8
  else 1 + heap_address_bits / 8

/-- One encoded shape entry (`send_heap.cpp` lines 115–122): the
variable-dimension tag byte (`2` under `BUG_COMPAT_SHAPE_BIT_1`, else `1`,
and `0` for a fixed dimension) followed by the big-endian dimension, zero
for a variable (negative) dimension. -/
def encodeShapeEntry (bug_compat : Nat) (heap_address_bits : Nat) (dim : Int) : List Nat :=
  let variable_tag : Nat := if bug_compat &&& BUG_COMPAT_SHAPE_BIT_1 ≠ 0 then 2 else 1
  (if dim < 0 then variable_tag else 0) ::
    store_bytes_be (shape_size bug_compat heap_address_bits - 1)
      (if dim < 0 then 0 else dim.toNat)

/-- The shift count computed on `send_heap.cpp` line 53:
`sizeof(item_pointer_t) - 1 - heap_address_bits`, evaluated in `size_t`
(unsigned 64-bit) arithmetic as C++ does, since `sizeof` yields `size_t`. -/
def idCheckShiftAmount (heap_address_bits : Int) : Nat :=
  (((itemPointerBytes : Int) - 1 - heap_address_bits) % 2 ^ 64).toNat

/-- The shift count the spec prescribes for the item-id bound:
`pointer_width − 1 − heap_address_bits` bits. -/
def specIdShiftAmount (heap_address_bits : Int) : Nat :=
  8 * itemPointerBytes - 1 - heap_address_bits.toNat

/-- The validity condition the `send::heap` constructor enforces
(`send_heap.cpp` lines 134–140): the negation of
`heap_address_bits <= 0 || heap_address_bits >= 8 * sizeof(item_pointer_t)
|| heap_address_bits % 8 != 0`. -/
def heapCtorThrows (heap_address_bits : Int) : Prop :=
  heap_address_bits ≤ 0 ∨ 8 * (itemPointerBytes : Int) ≤ heap_address_bits ∨
    heap_address_bits % 8 ≠ 0

instance (hab : Int) : Decidable (heapCtorThrows hab) := by
  unfold heapCtorThrows; infer_instance

/-- Modelled from the spec: read `n` big-endian 8-byte item-pointer words
from the byte stream (`recv_packet.cpp` is not among the sources); returns
the words and the remaining bytes, or `none` if the buffer is too short.
Each byte is reduced mod 256 as the wire carries octets. -/
def readWordsBE : Nat → List Nat → Option (List Nat × List Nat)
  | 0, l => some ([], l)
  | n + 1, b0 :: b1 :: b2 :: b3 :: b4 :: b5 :: b6 :: b7 :: rest =>
    match readWordsBE n rest with
    | some (ws, r) =>
      some (((((((((b0 % 256) * 256 + b1 % 256) * 256 + b2 % 256) * 256 + b3 % 256) * 256
        + b4 % 256) * 256 + b5 % 256) * 256 + b6 % 256) * 256 + b7 % 256) :: ws, r)
    | none => none
  | _ + 1, _ => none

/-- Modelled from the spec: unpack one item-pointer word under
`heap_address_bits` — immediate flag in the top bit, item ID in the next
`63 − heap_address_bits` bits, value in the low `heap_address_bits` bits. -/
def decodeItemPointer (hab : Nat) (w : Nat) : ItemPointer :=
  { immediate := (w >>> 63) % 2 == 1
    id := (w >>> hab) % 2 ^ (63 - hab)
    value := w % 2 ^ hab }

/-- The value of the first immediate pointer with the given ID, if any. -/
def findImm (ptrs : List ItemPointer) (i : Nat) : Option Nat :=
  ptrs.findSome? fun x => if x.immediate ∧ x.id = i then some x.value else none

/-- Modelled from the spec: `decode_packet` (`recv_packet.cpp` is not among
the sources; spec §4.1).  Reads the 8-byte header, validates the magic
`0x5304`, the pointer-width tag `8 − heap_address_bits/8`, and that
`heap_address_bits` is a positive multiple of 8 strictly below the pointer
width; reads the item pointers; extracts the standard immediates
(`HEAP_CNT`, `PAYLOAD_OFFSET`, `PAYLOAD_LENGTH`, and `HEAP_LENGTH` if
present), failing if a mandatory one is missing; validates that the declared
payload fits in the remaining buffer; collects the non-standard pointers.
Failure returns `none` (consumed 0); success returns the header and the
total consumed byte count. -/
def decodePacket (buf : List Nat) : Option (PacketHeader × Nat) :=
  match buf with
  | b0 :: b1 :: b2 :: b3 :: b4 :: b5 :: b6 :: b7 :: rest =>
    if (b0 % 256) * 256 + b1 % 256 ≠ 0x5304 then none
    else
      let habBytes := b3 % 256
      let n_items := (((b4 % 256) * 256 + b5 % 256) * 256 + b6 % 256) * 256 + b7 % 256
      if ¬(0 < habBytes ∧ habBytes < 8 ∧ b2 % 256 = 8 - habBytes) then none
      else
        match readWordsBE n_items rest with
        | none => none
        | some (ws, payloadBuf) =>
          let hab := 8 * habBytes
          let ptrs := ws.map (decodeItemPointer hab)
          match findImm ptrs HEAP_CNT_ID, findImm ptrs PAYLOAD_OFFSET_ID,
              findImm ptrs PAYLOAD_LENGTH_ID with
          | some hc, some po, some pl =>
            if payloadBuf.length < pl then none
            else
              let hl : Int := match findImm ptrs HEAP_LENGTH_ID with
                | some v => (v : Int)
                | none => -1
              some ({ heap_cnt := (hc : Int), heap_length := hl,
                      payload_offset := (po : Int), payload_length := (pl : Int),
                      heap_address_bits := (hab : Int),
                      pointers := ptrs.filter fun x =>
                        !(x.immediate && (x.id == HEAP_CNT_ID || x.id == HEAP_LENGTH_ID
                          || x.id == PAYLOAD_OFFSET_ID || x.id == PAYLOAD_LENGTH_ID)),
                      payload := payloadBuf.take pl },
                    8 + 8 * n_items + pl)
          | _, _, _ => none
  | _ => none

/-- `mem_to_stream` (`recv_stream.cpp` lines 150–166): while bytes remain
and the stream is not stopped, decode a packet; on success feed it to
`add_packet` (its result is ignored) and advance past it; on decode failure
exit the loop.  Returns the final stream state, the heaps passed to
`heap_ready`, and the number of bytes consumed (the returned pointer is the
input pointer plus that count). -/
def memToStream (s : StreamBase) (buf : List Nat) : StreamBase × List RecvHeap × Nat :=
  if h0 : buf = [] then (s, [], 0)
  else if s.stopped then (s, [], 0)
  else
    match decodePacket buf with
    | some (p, size) =>
      if hsz : 0 < size then
        let r := s.addPacket p
        let rest := memToStream r.1 (buf.drop size)
        (rest.1, r.2.1 ++ rest.2.1, size + rest.2.2)
      else (s, [], 0)
    | none => (s, [], 0)
termination_by buf.length
decreasing_by
  rw [List.length_drop]
  have hb : 0 < buf.length := List.length_pos.mpr h0
  omega

/-- The packet boundaries determined by the buffer alone: the maximal
sequence of successfully decodable packets from the front (the scan has no
resync point after a decode failure). -/
def chunks (buf : List Nat) : List (PacketHeader × Nat) :=
  if h0 : buf = [] then []
  else
    match decodePacket buf with
    | some (p, size) =>
      if hsz : 0 < size then (p, size) :: chunks (buf.drop size)
      else []
    | none => []
termination_by buf.length
decreasing_by
  rw [List.length_drop]
  have hb : 0 < buf.length := List.length_pos.mpr h0
  omega

/-- The amended scanning behaviour stated over pre-computed packet chunks:
each decoded packet is passed to `add_packet` whether or not the stream
accepts it, and the scan stops early only when the stream has become
stopped; the consumed count sums the sizes of the packets actually
processed. -/
def processChunks (s : StreamBase) : List (PacketHeader × Nat) → StreamBase × List RecvHeap × Nat
  | [] => (s, [], 0)
  | (p, size) :: rest =>
    if s.stopped then (s, [], 0)
    else
      let r := s.addPacket p
      let r2 := processChunks r.1 rest
      (r2.1, r.2.1 ++ r2.2.1, size + r2.2.2)

/-- The "ascending-id position" of the spec: a fresh heap is inserted after
exactly the live heaps with smaller counts. -/
def ascendingInsert (l : List RecvHeap) (h' : RecvHeap) : List RecvHeap :=
  l.takeWhile (fun x => decide (x.heap_cnt < h'.heap_cnt)) ++
    h' :: l.dropWhile (fun x => decide (x.heap_cnt < h'.heap_cnt))

theorem RecvHeap.addPacket_heap_cnt {h : RecvHeap} {p : PacketHeader} {h' : RecvHeap}
    (hs : h.addPacket p = some h') : h'.heap_cnt = h.heap_cnt := by
  simp only [RecvHeap.addPacket] at hs
  repeat' split at hs
  all_goals try exact Option.noConfusion hs
  all_goals rw [Option.some.injEq] at hs
  all_goals rw [← hs]

theorem scanMatch_found_reject {p : PacketHeader} {h : RecvHeap} {t : List RecvHeap}
    (hc : h.heap_cnt = p.heap_cnt) (hp : h.addPacket p = none) :
    scanMatch p (h :: t) = some (h :: t, [], false, false) := by
  simp [scanMatch, hc, hp]

theorem scanMatch_found_complete {p : PacketHeader} {h h' : RecvHeap} {t : List RecvHeap}
    (hc : h.heap_cnt = p.heap_cnt) (hp : h.addPacket p = some h')
    (hcomp : h'.isComplete = true) :
    scanMatch p (h :: t) = some (t, [h'], true, h'.isEndOfStream) := by
  simp [scanMatch, hc, hp, hcomp]

theorem scanMatch_found_incomplete {p : PacketHeader} {h h' : RecvHeap} {t : List RecvHeap}
    (hc : h.heap_cnt = p.heap_cnt) (hp : h.addPacket p = some h')
    (hcomp : h'.isComplete = false) :
    scanMatch p (h :: t) = some (h' :: t, [], true, h'.isEndOfStream) := by
  simp [scanMatch, hc, hp, hcomp]

theorem scanMatch_next_some {p : PacketHeader} {h : RecvHeap} {t t' : List RecvHeap}
    {em : List RecvHeap} {r e : Bool}
    (hc : ¬h.heap_cnt = p.heap_cnt) (hsc : scanMatch p t = some (t', em, r, e)) :
    scanMatch p (h :: t) = some (h :: t', em, r, e) := by
  simp [scanMatch, hc, hsc]

theorem scanMatch_next_none {p : PacketHeader} {h : RecvHeap} {t : List RecvHeap}
    (hc : ¬h.heap_cnt = p.heap_cnt) (hsc : scanMatch p t = none) :
    scanMatch p (h :: t) = none := by
  simp [scanMatch, hc, hsc]

theorem scanMatch_none_iff {p : PacketHeader} {l : List RecvHeap} :
    scanMatch p l = none ↔ ∀ h ∈ l, h.heap_cnt ≠ p.heap_cnt := by
  induction l with
  | nil => simp [scanMatch]
  | cons h t ih =>
    by_cases hc : h.heap_cnt = p.heap_cnt
    · constructor
      · intro hnone
        exfalso
        cases hp : h.addPacket p with
        | some h' =>
          cases hcomp : h'.isComplete with
          | true => rw [scanMatch_found_complete hc hp hcomp] at hnone; exact Option.noConfusion hnone
          | false => rw [scanMatch_found_incomplete hc hp hcomp] at hnone; exact Option.noConfusion hnone
        | none => rw [scanMatch_found_reject hc hp] at hnone; exact Option.noConfusion hnone
      · intro hall
        exact absurd hc (hall h (List.mem_cons_self h t))
    · constructor
      · intro hnone
        cases hsc : scanMatch p t with
        | some v =>
          obtain ⟨t', em, r, e⟩ := v
          rw [scanMatch_next_some hc hsc] at hnone
          exact Option.noConfusion hnone
        | none =>
          intro x hx
          rcases List.mem_cons.mp hx with rfl | hx'
          · exact hc
          · exact (ih.mp hsc) x hx'
      · intro hall
        have h0 := ih.mpr (fun x hx => hall x (List.mem_cons_of_mem h hx))
        exact scanMatch_next_none hc h0

theorem scanMatch_cnts_sublist {p : PacketHeader} {l l' : List RecvHeap}
    {em : List RecvHeap} {r e : Bool}
    (hs : scanMatch p l = some (l', em, r, e)) :
    List.Sublist (heapCnts l') (heapCnts l) := by
  induction l generalizing l' em r e with
  | nil => exact Option.noConfusion hs
  | cons h t ih =>
    by_cases hc : h.heap_cnt = p.heap_cnt
    · cases hp : h.addPacket p with
      | none =>
        rw [scanMatch_found_reject hc hp] at hs
        simp only [Option.some.injEq, Prod.mk.injEq] at hs
        rw [← hs.1]
      | some h' =>
        cases hcomp : h'.isComplete with
        | true =>
          rw [scanMatch_found_complete hc hp hcomp] at hs
          simp only [Option.some.injEq, Prod.mk.injEq] at hs
          rw [← hs.1]
          exact List.sublist_cons_self _ _
        | false =>
          rw [scanMatch_found_incomplete hc hp hcomp] at hs
          simp only [Option.some.injEq, Prod.mk.injEq] at hs
          rw [← hs.1]
          have hcnt : h'.heap_cnt = h.heap_cnt := RecvHeap.addPacket_heap_cnt hp
          simp [heapCnts, hcnt]
    · cases hsc : scanMatch p t with
      | some v =>
        obtain ⟨t', em0, r0, e0⟩ := v
        rw [scanMatch_next_some hc hsc] at hs
        simp only [Option.some.injEq, Prod.mk.injEq] at hs
        rw [← hs.1]
        simp only [heapCnts, List.map_cons]
        exact (ih hsc).cons₂ _
      | none => rw [scanMatch_next_none hc hsc] at hs; exact Option.noConfusion hs

theorem scanMatch_reject {p : PacketHeader} {l l' : List RecvHeap}
    {em : List RecvHeap} {e : Bool}
    (hs : scanMatch p l = some (l', em, false, e)) :
    l' = l ∧ em = [] ∧ e = false := by
  induction l generalizing l' em e with
  | nil => exact Option.noConfusion hs
  | cons h t ih =>
    by_cases hc : h.heap_cnt = p.heap_cnt
    · cases hp : h.addPacket p with
      | none =>
        rw [scanMatch_found_reject hc hp] at hs
        simp only [Option.some.injEq, Prod.mk.injEq] at hs
        exact ⟨hs.1.symm, hs.2.1.symm, hs.2.2.2.symm⟩
      | some h' =>
        cases hcomp : h'.isComplete with
        | true =>
          rw [scanMatch_found_complete hc hp hcomp] at hs
          simp only [Option.some.injEq, Prod.mk.injEq] at hs
          exact absurd hs.2.2.1 (by simp)
        | false =>
          rw [scanMatch_found_incomplete hc hp hcomp] at hs
          simp only [Option.some.injEq, Prod.mk.injEq] at hs
          exact absurd hs.2.2.1 (by simp)
    · cases hsc : scanMatch p t with
      | some v =>
        obtain ⟨t', em0, r0, e0⟩ := v
        rw [scanMatch_next_some hc hsc] at hs
        simp only [Option.some.injEq, Prod.mk.injEq] at hs
        obtain ⟨h1, h2, h3, h4⟩ := hs
        subst h3
        obtain ⟨ht, hem, he⟩ := ih hsc
        exact ⟨by rw [← h1, ht], by rw [← h2, hem], by rw [← h4, he]⟩
      | none => rw [scanMatch_next_none hc hsc] at hs; exact Option.noConfusion hs

theorem insertAt_length (a : RecvHeap) : ∀ (n : Nat) (l : List RecvHeap),
    (insertAt n a l).length = l.length + 1 := by
  intro n
  induction n with
  | zero => intro l; rfl
  | succ m ih =>
    intro l
    cases l with
    | nil => rfl
    | cons x xs => simp [insertAt, ih xs]

theorem insertAt_takeWhile (a : RecvHeap) (q : RecvHeap → Bool) :
    ∀ (l : List RecvHeap),
    insertAt (l.takeWhile q).length a l = l.takeWhile q ++ a :: l.dropWhile q := by
  intro l
  induction l with
  | nil => rfl
  | cons h t ih =>
    cases hq : q h with
    | true =>
      rw [List.takeWhile_cons_of_pos hq]
      simp only [List.length_cons, insertAt, List.cons_append]
      rw [ih]
      simp [List.dropWhile_cons, hq]
    | false =>
      simp [List.takeWhile_cons, List.dropWhile_cons, hq, insertAt]

theorem insertPosAux_no_lt {c : Int} : ∀ {l : List RecvHeap} (idx acc : Nat),
    (∀ x ∈ l, ¬(x.heap_cnt < c) ∧ x.heap_cnt ≠ c) →
    insertPosAux c l idx acc = acc := by
  intro l
  induction l with
  | nil => intros; rfl
  | cons h t ih =>
    intro idx acc hall
    obtain ⟨hlt, hne⟩ := hall h (List.mem_cons_self h t)
    simp only [insertPosAux]
    rw [if_neg hne, if_neg hlt]
    exact ih _ _ (fun x hx => hall x (List.mem_cons_of_mem h hx))

theorem insertPosAux_sorted {c : Int} : ∀ {l : List RecvHeap} (idx acc : Nat),
    sortedCnts l → c ∉ heapCnts l →
    insertPosAux c l idx acc =
      if (l.takeWhile fun x => decide (x.heap_cnt < c)).length = 0 then acc
      else idx + (l.takeWhile fun x => decide (x.heap_cnt < c)).length := by
  intro l
  induction l with
  | nil => intros; rfl
  | cons h t ih =>
    intro idx acc hsort hmem
    have hne : h.heap_cnt ≠ c := by
      intro hEq
      exact hmem (by simp [heapCnts, hEq])
    have hmem' : c ∉ heapCnts t := fun hx => hmem (by simp [heapCnts] at hx ⊢; right; exact hx)
    have hsort' : sortedCnts t := by
      simp only [sortedCnts, heapCnts, List.map_cons, List.pairwise_cons] at hsort
      exact hsort.2
    simp only [insertPosAux]
    rw [if_neg hne]
    by_cases hlt : h.heap_cnt < c
    · rw [if_pos hlt, List.takeWhile_cons_of_pos (by simp [hlt])]
      rw [ih (idx + 1) (idx + 1) hsort' hmem']
      simp only [List.length_cons]
      repeat' split
      all_goals omega
    · rw [if_neg hlt]
      have hgt : c < h.heap_cnt := by
        rcases lt_trichotomy c h.heap_cnt with h1 | h1 | h1
        · exact h1
        · exact absurd h1.symm hne
        · exact absurd h1 hlt
      have hallgt : ∀ x ∈ t, ¬(x.heap_cnt < c) ∧ x.heap_cnt ≠ c := by
        intro x hx
        simp only [sortedCnts, heapCnts, List.map_cons, List.pairwise_cons] at hsort
        have := hsort.1 x.heap_cnt (List.mem_map_of_mem _ hx)
        constructor
        · omega
        · omega
      rw [insertPosAux_no_lt _ _ hallgt]
      rw [List.takeWhile_cons_of_neg (by simp [hlt])]
      simp

theorem insertPos_sorted {l : List RecvHeap} {c : Int}
    (hsort : sortedCnts l) (hmem : c ∉ heapCnts l) :
    insertPos l c = (l.takeWhile fun x => decide (x.heap_cnt < c)).length := by
  unfold insertPos
  rw [insertPosAux_sorted 0 0 hsort hmem]
  split <;> omega

theorem mem_ascendingInsert {l : List RecvHeap} {h' x : RecvHeap}
    (hx : x ∈ ascendingInsert l h') : x = h' ∨ x ∈ l := by
  unfold ascendingInsert at hx
  rcases List.mem_append.mp hx with hx1 | hx2
  · exact Or.inr ((List.takeWhile_sublist _).subset hx1)
  · rcases List.mem_cons.mp hx2 with rfl | hx3
    · exact Or.inl rfl
    · exact Or.inr ((List.dropWhile_sublist _).subset hx3)

theorem sorted_ascendingInsert {l : List RecvHeap} {h' : RecvHeap}
    (hsort : sortedCnts l) (hmem : h'.heap_cnt ∉ heapCnts l) :
    sortedCnts (ascendingInsert l h') := by
  induction l with
  | nil => simp [ascendingInsert, sortedCnts, heapCnts]
  | cons h t ih =>
    have hne : h.heap_cnt ≠ h'.heap_cnt := by
      intro hEq
      exact hmem (by simp [heapCnts, hEq])
    have hmem' : h'.heap_cnt ∉ heapCnts t := fun hx =>
      hmem (by simp [heapCnts] at hx ⊢; right; exact hx)
    simp only [sortedCnts, heapCnts, List.map_cons, List.pairwise_cons] at hsort
    obtain ⟨hhd, hsort'⟩ := hsort
    by_cases hlt : h.heap_cnt < h'.heap_cnt
    · have heq : ascendingInsert (h :: t) h' = h :: ascendingInsert t h' := by
        unfold ascendingInsert
        rw [List.takeWhile_cons_of_pos (by simp [hlt])]
        simp [List.dropWhile_cons, hlt]
      rw [heq]
      simp only [sortedCnts, heapCnts, List.map_cons, List.pairwise_cons]
      constructor
      · intro b hb
        simp only [heapCnts, List.mem_map] at hb
        obtain ⟨y, hy, rfl⟩ := hb
        rcases mem_ascendingInsert hy with rfl | hy'
        · exact hlt
        · exact hhd y.heap_cnt (List.mem_map_of_mem _ hy')
      · exact ih hsort' hmem'
    · have hgt : h'.heap_cnt < h.heap_cnt := by
        rcases lt_trichotomy h'.heap_cnt h.heap_cnt with h1 | h1 | h1
        · exact h1
        · exact absurd h1 (fun hEq => hne hEq.symm)
        · exact absurd h1 hlt
      have heq : ascendingInsert (h :: t) h' = h' :: h :: t := by
        unfold ascendingInsert
        rw [List.takeWhile_cons_of_neg (by simp [hlt])]
        simp [List.dropWhile_cons, hlt]
      rw [heq]
      simp only [sortedCnts, heapCnts, List.map_cons, List.pairwise_cons]
      refine ⟨?_, ?_, hsort'⟩
      · intro b hb
        rcases List.mem_cons.mp hb with rfl | hb'
        · exact hgt
        · simp only [List.mem_map] at hb'
          obtain ⟨y, hy, rfl⟩ := hb'
          exact lt_trans hgt (hhd y.heap_cnt (List.mem_map_of_mem _ hy))
      · exact hhd

theorem sortedCnts_tail {l : List RecvHeap} (hsort : sortedCnts l) :
    sortedCnts l.tail := by
  cases l with
  | nil => exact hsort
  | cons h t =>
    simp only [sortedCnts, heapCnts, List.map_cons, List.pairwise_cons] at hsort
    exact hsort.2

theorem take_one_min {l : List RecvHeap} (hsort : sortedCnts l) :
    ∀ x ∈ l, ∀ m ∈ l.take 1, m.heap_cnt ≤ x.heap_cnt := by
  cases l with
  | nil => intro x hx; exact absurd hx (List.not_mem_nil x)
  | cons h t =>
    intro x hx m hm
    simp only [List.take, List.mem_singleton] at hm
    subst hm
    rcases List.mem_cons.mp hx with rfl | hx'
    · exact le_refl _
    · simp only [sortedCnts, heapCnts, List.map_cons, List.pairwise_cons] at hsort
      exact le_of_lt (hsort.1 x.heap_cnt (List.mem_map_of_mem _ hx'))

theorem addPacketCore_scan {s : StreamBase} {p : PacketHeader}
    {hs' em : List RecvHeap} {r e : Bool}
    (h : scanMatch p s.heaps = some (hs', em, r, e)) :
    s.addPacketCore p = ⟨{ s with heaps := hs' }, em, r, e⟩ := by
  simp [StreamBase.addPacketCore, h]

theorem addPacketCore_new_reject {s : StreamBase} {p : PacketHeader}
    (hsc : scanMatch p s.heaps = none) (hp : (s.newHeapFor p).addPacket p = none) :
    s.addPacketCore p = ⟨s, [], false, false⟩ := by
  simp [StreamBase.addPacketCore, hsc, hp]

theorem addPacketCore_new_complete {s : StreamBase} {p : PacketHeader} {h' : RecvHeap}
    (hsc : scanMatch p s.heaps = none) (hp : (s.newHeapFor p).addPacket p = some h')
    (hcomp : h'.isComplete = true) :
    s.addPacketCore p = ⟨s, [h'], true, h'.isEndOfStream⟩ := by
  simp [StreamBase.addPacketCore, hsc, hp, hcomp]

theorem addPacketCore_new_insert {s : StreamBase} {p : PacketHeader} {h' : RecvHeap}
    (hsc : scanMatch p s.heaps = none) (hp : (s.newHeapFor p).addPacket p = some h')
    (hcomp : h'.isComplete = false)
    (hlen : ¬s.max_heaps < (insertAt (insertPos s.heaps p.heap_cnt) h' s.heaps).length) :
    s.addPacketCore p =
      ⟨{ s with heaps := insertAt (insertPos s.heaps p.heap_cnt) h' s.heaps },
        [], true, h'.isEndOfStream⟩ := by
  simp [StreamBase.addPacketCore, hsc, hp, hcomp, hlen]

theorem addPacketCore_new_evict {s : StreamBase} {p : PacketHeader} {h' : RecvHeap}
    (hsc : scanMatch p s.heaps = none) (hp : (s.newHeapFor p).addPacket p = some h')
    (hcomp : h'.isComplete = false)
    (hlen : s.max_heaps < (insertAt (insertPos s.heaps p.heap_cnt) h' s.heaps).length) :
    s.addPacketCore p =
      ⟨{ s with heaps := (insertAt (insertPos s.heaps p.heap_cnt) h' s.heaps).tail },
        (insertAt (insertPos s.heaps p.heap_cnt) h' s.heaps).take 1,
        true, h'.isEndOfStream⟩ := by
  simp [StreamBase.addPacketCore, hsc, hp, hcomp, hlen]

theorem insertAt_eq_ascendingInsert {l : List RecvHeap} {c : Int} {h' : RecvHeap}
    (hsort : sortedCnts l) (hmem : c ∉ heapCnts l) (hcnt : h'.heap_cnt = c) :
    insertAt (insertPos l c) h' l = ascendingInsert l h' := by
  subst hcnt
  rw [insertPos_sorted hsort hmem]
  exact insertAt_takeWhile h' _ l

theorem newHeapFor_heap_cnt (s : StreamBase) (p : PacketHeader) :
    (s.newHeapFor p).heap_cnt = p.heap_cnt := rfl

theorem not_mem_heapCnts_of_scanMatch_none {s : StreamBase} {p : PacketHeader}
    (hsc : scanMatch p s.heaps = none) : p.heap_cnt ∉ heapCnts s.heaps := by
  intro hmem
  simp only [heapCnts, List.mem_map] at hmem
  obtain ⟨x, hx, hcx⟩ := hmem
  exact (scanMatch_none_iff.mp hsc) x hx hcx

theorem addPacketCore_sorted {s : StreamBase} {p : PacketHeader}
    (hsort : sortedCnts s.heaps) : sortedCnts (s.addPacketCore p).state.heaps := by
  cases hsc : scanMatch p s.heaps with
  | some v =>
    obtain ⟨hs', em, r, e⟩ := v
    rw [addPacketCore_scan hsc]
    exact hsort.sublist (scanMatch_cnts_sublist hsc)
  | none =>
    cases hp : (s.newHeapFor p).addPacket p with
    | none => rw [addPacketCore_new_reject hsc hp]; exact hsort
    | some h' =>
      have hcnt : h'.heap_cnt = p.heap_cnt := RecvHeap.addPacket_heap_cnt hp
      have hmem : p.heap_cnt ∉ heapCnts s.heaps := not_mem_heapCnts_of_scanMatch_none hsc
      have hins : insertAt (insertPos s.heaps p.heap_cnt) h' s.heaps = ascendingInsert s.heaps h' :=
        insertAt_eq_ascendingInsert hsort hmem hcnt
      have hsorted' : sortedCnts (ascendingInsert s.heaps h') :=
        sorted_ascendingInsert hsort (by rw [hcnt]; exact hmem)
      cases hcomp : h'.isComplete with
      | true => rw [addPacketCore_new_complete hsc hp hcomp]; exact hsort
      | false =>
        by_cases hlen : s.max_heaps < (insertAt (insertPos s.heaps p.heap_cnt) h' s.heaps).length
        · rw [addPacketCore_new_evict hsc hp hcomp hlen]
          simp only [hins]
          exact sortedCnts_tail hsorted'
        · rw [addPacketCore_new_insert hsc hp hcomp hlen]
          simp only [hins]
          exact hsorted'

theorem addPacketCore_length {s : StreamBase} {p : PacketHeader} :
    (s.addPacketCore p).state.heaps.length ≤ max s.heaps.length s.max_heaps := by
  cases hsc : scanMatch p s.heaps with
  | some v =>
    obtain ⟨hs', em, r, e⟩ := v
    rw [addPacketCore_scan hsc]
    have := (scanMatch_cnts_sublist hsc).length_le
    simp only [heapCnts, List.length_map] at this
    exact le_max_of_le_left this
  | none =>
    cases hp : (s.newHeapFor p).addPacket p with
    | none => rw [addPacketCore_new_reject hsc hp]; exact le_max_left _ _
    | some h' =>
      cases hcomp : h'.isComplete with
      | true => rw [addPacketCore_new_complete hsc hp hcomp]; exact le_max_left _ _
      | false =>
        by_cases hlen : s.max_heaps < (insertAt (insertPos s.heaps p.heap_cnt) h' s.heaps).length
        · rw [addPacketCore_new_evict hsc hp hcomp hlen]
          simp only [List.length_tail, insertAt_length]
          exact le_max_of_le_left (by omega)
        · rw [addPacketCore_new_insert hsc hp hcomp hlen]
          refine le_max_of_le_right ?_
          show (insertAt (insertPos s.heaps p.heap_cnt) h' s.heaps).length ≤ s.max_heaps
          omega

theorem addPacketCore_fields (s : StreamBase) (p : PacketHeader) :
    (s.addPacketCore p).state.max_heaps = s.max_heaps ∧
    (s.addPacketCore p).state.stopped = s.stopped ∧
    (s.addPacketCore p).state.bug_compat = s.bug_compat ∧
    (s.addPacketCore p).state.pool = s.pool := by
  cases hsc : scanMatch p s.heaps with
  | some v =>
    obtain ⟨hs', em, r, e⟩ := v
    rw [addPacketCore_scan hsc]
    exact ⟨rfl, rfl, rfl, rfl⟩
  | none =>
    cases hp : (s.newHeapFor p).addPacket p with
    | none => rw [addPacketCore_new_reject hsc hp]; exact ⟨rfl, rfl, rfl, rfl⟩
    | some h' =>
      cases hcomp : h'.isComplete with
      | true => rw [addPacketCore_new_complete hsc hp hcomp]; exact ⟨rfl, rfl, rfl, rfl⟩
      | false =>
        by_cases hlen : s.max_heaps < (insertAt (insertPos s.heaps p.heap_cnt) h' s.heaps).length
        · rw [addPacketCore_new_evict hsc hp hcomp hlen]; exact ⟨rfl, rfl, rfl, rfl⟩
        · rw [addPacketCore_new_insert hsc hp hcomp hlen]; exact ⟨rfl, rfl, rfl, rfl⟩

theorem addPacket_result (s : StreamBase) (p : PacketHeader) :
    (s.addPacket p).2.2 = (s.addPacketCore p).result := by
  unfold StreamBase.addPacket
  cases heos : (s.addPacketCore p).eos <;> simp [StreamBase.stop, StreamBase.flush, heos]

theorem addPacket_max_heaps (s : StreamBase) (p : PacketHeader) :
    (s.addPacket p).1.max_heaps = s.max_heaps := by
  unfold StreamBase.addPacket
  cases heos : (s.addPacketCore p).eos <;>
    simp [StreamBase.stop, StreamBase.flush, heos, (addPacketCore_fields s p).1]

theorem addPacket_length {s : StreamBase} {p : PacketHeader} :
    (s.addPacket p).1.heaps.length ≤ max s.heaps.length s.max_heaps := by
  unfold StreamBase.addPacket
  cases heos : (s.addPacketCore p).eos with
  | true => simp [StreamBase.stop, StreamBase.flush, heos]
  | false => simpa [heos] using (addPacketCore_length (s := s) (p := p))

theorem addPacket_sorted {s : StreamBase} {p : PacketHeader}
    (hsort : sortedCnts s.heaps) : sortedCnts (s.addPacket p).1.heaps := by
  unfold StreamBase.addPacket
  cases heos : (s.addPacketCore p).eos with
  | true => simp [StreamBase.stop, StreamBase.flush, heos, sortedCnts, heapCnts]
  | false => simpa [heos] using addPacketCore_sorted (p := p) hsort

/-- The side condition under which the spec's capacity invariant is claimed:
every `set_max_heaps` call is made while the live count does not exceed the
new cap. -/
def capRespected (s : StreamBase) : List Op → Bool
  | [] => true
  | op :: ops =>
    (match op with
     | .setMaxHeaps n => decide (s.heaps.length ≤ n)
     | _ => true) && capRespected (s.applyOp op).1 ops

theorem run_capacity : ∀ (ops : List Op) (s : StreamBase),
    s.heaps.length ≤ s.max_heaps → capRespected s ops = true →
    (s.run ops).1.heaps.length ≤ (s.run ops).1.max_heaps := by
  intro ops
  induction ops with
  | nil => intro s hle _; exact hle
  | cons op rest ih =>
    intro s hle hcap
    simp only [capRespected, Bool.and_eq_true] at hcap
    obtain ⟨hop, hcap'⟩ := hcap
    simp only [StreamBase.run]
    cases op with
    | packet p =>
      refine ih _ ?_ hcap'
      simp only [StreamBase.applyOp]
      calc (s.addPacket p).1.heaps.length
          ≤ max s.heaps.length s.max_heaps := addPacket_length
        _ ≤ s.max_heaps := by omega
        _ = (s.addPacket p).1.max_heaps := (addPacket_max_heaps s p).symm
    | setMaxHeaps n =>
      refine ih _ ?_ hcap'
      simp only [StreamBase.applyOp, StreamBase.setMaxHeaps]
      simpa using of_decide_eq_true hop
    | setMempool q => exact ih _ hle hcap'
    | flush => refine ih _ ?_ hcap'; simp [StreamBase.applyOp, StreamBase.flush]
    | stop => refine ih _ ?_ hcap'; simp [StreamBase.applyOp, StreamBase.stop, StreamBase.flush]

theorem run_sorted : ∀ (ops : List Op) (s : StreamBase),
    sortedCnts s.heaps → sortedCnts (s.run ops).1.heaps := by
  intro ops
  induction ops with
  | nil => intro s hsort; exact hsort
  | cons op rest ih =>
    intro s hsort
    simp only [StreamBase.run]
    cases op with
    | packet p => exact ih _ (addPacket_sorted hsort)
    | setMaxHeaps n => exact ih _ hsort
    | setMempool q => exact ih _ hsort
    | flush => exact ih _ (by simp [StreamBase.applyOp, StreamBase.flush, sortedCnts, heapCnts])
    | stop => exact ih _ (by simp [StreamBase.applyOp, StreamBase.stop, StreamBase.flush, sortedCnts, heapCnts])

theorem addPacketCore_reject_state {s : StreamBase} {p : PacketHeader}
    (h : (s.addPacketCore p).result = false) :
    s.addPacketCore p = ⟨s, [], false, false⟩ := by
  cases hsc : scanMatch p s.heaps with
  | some v =>
    obtain ⟨hs', em, r, e⟩ := v
    rw [addPacketCore_scan hsc] at h ⊢
    have hr : r = false := h
    subst hr
    obtain ⟨ht, hem, he⟩ := scanMatch_reject hsc
    subst ht
    subst hem
    subst he
    rfl
  | none =>
    cases hp : (s.newHeapFor p).addPacket p with
    | none => exact addPacketCore_new_reject hsc hp
    | some h' =>
      cases hcomp : h'.isComplete with
      | true =>
        rw [addPacketCore_new_complete hsc hp hcomp] at h
        exact absurd h (by simp)
      | false =>
        by_cases hlen : s.max_heaps < (insertAt (insertPos s.heaps p.heap_cnt) h' s.heaps).length
        · rw [addPacketCore_new_evict hsc hp hcomp hlen] at h
          exact absurd h (by simp)
        · rw [addPacketCore_new_insert hsc hp hcomp hlen] at h
          exact absurd h (by simp)

/-- A packet whose heap declares 16 payload bytes but carries only 8: the
receiving heap stays incomplete and live. -/
def pIncomplete (c : Int) : PacketHeader :=
  { heap_cnt := c, heap_length := 16, payload_offset := 0, payload_length := 8,
    heap_address_bits := 48, pointers := [], payload := List.replicate 8 0 }

/-- A single-packet heap carrying a `STREAM_CTRL` end-of-stream item: the
heap is immediately complete and reports end-of-stream. -/
def pEOS (c : Int) : PacketHeader :=
  { heap_cnt := c, heap_length := 0, payload_offset := 0, payload_length := 0,
    heap_address_bits := 48,
    pointers := [⟨true, STREAM_CTRL_ID, CTRL_STREAM_STOP⟩], payload := [] }

/-- A stream with one live (incomplete) heap of count 1. -/
def oneHeapStream : StreamBase :=
  ((mkStreamBase 0 4).run [Op.packet (pIncomplete 1)]).1

/-- A stream with two live (incomplete) heaps of counts 1 and 2. -/
def twoHeapStream : StreamBase :=
  ((mkStreamBase 0 4).run [Op.packet (pIncomplete 1), Op.packet (pIncomplete 2)]).1

/-- C2 counterexample: two live heaps, then `set_max_heaps 0`, then a third
packet.  `add_packet` evicts only one heap, so it returns with 2 live heaps
while `max_heaps = 0`: the claimed bound `count ≤ max_heaps + 1` (and the
bound `count ≤ max_heaps` at `add_packet` return) is violated. -/
theorem c2_cap_violated :
    ¬((((mkStreamBase 0 4).run
        [Op.packet (pIncomplete 1), Op.packet (pIncomplete 2),
         Op.setMaxHeaps 0, Op.packet (pIncomplete 3)]).1.heaps.length) ≤
      (((mkStreamBase 0 4).run
        [Op.packet (pIncomplete 1), Op.packet (pIncomplete 2),
         Op.setMaxHeaps 0, Op.packet (pIncomplete 3)]).1.max_heaps) + 1) := by
  decide

/-- C2 (amended): provided every `set_max_heaps` call is made while the live
count is at most the new cap, the live count never exceeds `max_heaps`
(hence never exceeds `max_heaps + 1`) at any observable moment, including
at every `add_packet` return; and `set_max_heaps` changes only the cap,
never removing heaps. -/
theorem c2_capacity_invariant (bug maxh : Nat) (ops : List Op)
    (hcap : capRespected (mkStreamBase bug maxh) ops = true) :
    ((mkStreamBase bug maxh).run ops).1.heaps.length ≤
      ((mkStreamBase bug maxh).run ops).1.max_heaps ∧
    ((mkStreamBase bug maxh).run ops).1.heaps.length ≤
      ((mkStreamBase bug maxh).run ops).1.max_heaps + 1 ∧
    ∀ n, (((mkStreamBase bug maxh).run ops).1.setMaxHeaps n).heaps =
      ((mkStreamBase bug maxh).run ops).1.heaps := by
  have h := run_capacity ops (mkStreamBase bug maxh) (by simp [mkStreamBase]) hcap
  exact ⟨h, by omega, fun n => rfl⟩

/-- Witness for the amended C2 at a concrete run. -/
theorem c2_capacity_invariant_witness :
    capRespected (mkStreamBase 0 4) [Op.packet (pIncomplete 1), Op.setMaxHeaps 2] = true ∧
    (((mkStreamBase 0 4).run [Op.packet (pIncomplete 1), Op.setMaxHeaps 2]).1.heaps.length ≤
      ((mkStreamBase 0 4).run [Op.packet (pIncomplete 1), Op.setMaxHeaps 2]).1.max_heaps ∧
    ((mkStreamBase 0 4).run [Op.packet (pIncomplete 1), Op.setMaxHeaps 2]).1.heaps.length ≤
      ((mkStreamBase 0 4).run [Op.packet (pIncomplete 1), Op.setMaxHeaps 2]).1.max_heaps + 1 ∧
    ∀ n, (((mkStreamBase 0 4).run [Op.packet (pIncomplete 1), Op.setMaxHeaps 2]).1.setMaxHeaps n).heaps =
      ((mkStreamBase 0 4).run [Op.packet (pIncomplete 1), Op.setMaxHeaps 2]).1.heaps) :=
  ⟨by decide, c2_capacity_invariant 0 4 [Op.packet (pIncomplete 1), Op.setMaxHeaps 2] (by decide)⟩

/-- C4: after any sequence of operations on a fresh stream, the live heap
counts are strictly ascending (no duplicates, increasing deque order). -/
theorem c4_sorted_invariant (bug maxh : Nat) (ops : List Op) :
    sortedCnts (((mkStreamBase bug maxh).run ops).1.heaps) :=
  run_sorted ops (mkStreamBase bug maxh) (by simp [mkStreamBase, sortedCnts, heapCnts])

/-- C5: `flush` passes every live heap to `heap_ready` exactly once in
ascending heap-count order and clears the collection; `stop` performs this
flush and marks the stream stopped, so the collection is empty afterwards,
and a second `stop` passes no further heaps. -/
theorem c5_flush_stop (s : StreamBase) (hsort : sortedCnts s.heaps) :
    s.flush.2 = s.heaps ∧
    s.flush.1.heaps = [] ∧
    (heapCnts s.flush.2).Pairwise (· < ·) ∧
    s.stop.1.stopped = true ∧
    s.stop.2 = s.heaps ∧
    s.stop.1.heaps = [] ∧
    (s.stop.1).stop.2 = [] :=
  ⟨rfl, rfl, hsort, rfl, rfl, rfl, rfl⟩

/-- Witness for C5 at a concrete two-heap stream. -/
theorem c5_flush_stop_witness :
    sortedCnts twoHeapStream.heaps ∧
    (twoHeapStream.flush.2 = twoHeapStream.heaps ∧
    twoHeapStream.flush.1.heaps = [] ∧
    (heapCnts twoHeapStream.flush.2).Pairwise (· < ·) ∧
    twoHeapStream.stop.1.stopped = true ∧
    twoHeapStream.stop.2 = twoHeapStream.heaps ∧
    twoHeapStream.stop.1.heaps = [] ∧
    (twoHeapStream.stop.1).stop.2 = []) :=
  ⟨by decide, c5_flush_stop twoHeapStream (by decide)⟩

/-- C6: when the dispatch phase of `add_packet` notes end-of-stream (the
packet was accepted and the receiving heap's end-of-stream flag is set, which
is exactly how the code computes the local `end_of_stream` variable),
`add_packet` invokes `stop()` before returning: the stream is stopped, the
live collection is empty, and the remaining live heaps were all flushed
after the dispatch emissions, in ascending heap-count order. -/
theorem c6_eos_stops (s : StreamBase) (p : PacketHeader)
    (hsort : sortedCnts s.heaps)
    (heos : (s.addPacketCore p).eos = true) :
    (s.addPacket p).1.stopped = true ∧
    (s.addPacket p).1.heaps = [] ∧
    (s.addPacket p).2.1 = (s.addPacketCore p).emitted ++ (s.addPacketCore p).state.heaps ∧
    (heapCnts ((s.addPacketCore p).state.heaps)).Pairwise (· < ·) := by
  unfold StreamBase.addPacket
  rw [if_pos heos]
  exact ⟨rfl, rfl, rfl, addPacketCore_sorted hsort⟩

/-- Witness for C6: a fresh stream receiving an end-of-stream packet. -/
theorem c6_eos_stops_witness :
    sortedCnts (mkStreamBase 0 4).heaps ∧
    ((mkStreamBase 0 4).addPacketCore (pEOS 1)).eos = true ∧
    (((mkStreamBase 0 4).addPacket (pEOS 1)).1.stopped = true ∧
    ((mkStreamBase 0 4).addPacket (pEOS 1)).1.heaps = [] ∧
    ((mkStreamBase 0 4).addPacket (pEOS 1)).2.1 =
      ((mkStreamBase 0 4).addPacketCore (pEOS 1)).emitted ++
        ((mkStreamBase 0 4).addPacketCore (pEOS 1)).state.heaps ∧
    (heapCnts (((mkStreamBase 0 4).addPacketCore (pEOS 1)).state.heaps)).Pairwise (· < ·)) :=
  ⟨by decide, by decide, c6_eos_stops (mkStreamBase 0 4) (pEOS 1) (by decide) (by decide)⟩

/-- C3: a packet matching no live heap leads to a fresh heap carrying the
stream's pool; a rejected packet changes nothing; an accepted and
immediately complete heap is emitted without insertion; otherwise the heap
is inserted at its ascending-id position, and when that pushes the live
count above `max_heaps` the lowest-count live heap is emitted and removed. -/
theorem c3_new_heap_dispatch (s : StreamBase) (p : PacketHeader)
    (hsort : sortedCnts s.heaps)
    (hnf : ∀ h ∈ s.heaps, h.heap_cnt ≠ p.heap_cnt) :
    ((s.newHeapFor p).addPacket p = none → s.addPacketCore p = ⟨s, [], false, false⟩) ∧
    (∀ h', (s.newHeapFor p).addPacket p = some h' →
      (h'.isComplete = true →
        s.addPacketCore p = ⟨s, [h'], true, h'.isEndOfStream⟩) ∧
      (h'.isComplete = false →
        (s.addPacketCore p).result = true ∧
        (s.addPacketCore p).eos = h'.isEndOfStream ∧
        ((ascendingInsert s.heaps h').length ≤ s.max_heaps →
          (s.addPacketCore p).state.heaps = ascendingInsert s.heaps h' ∧
          (s.addPacketCore p).emitted = []) ∧
        (s.max_heaps < (ascendingInsert s.heaps h').length →
          (s.addPacketCore p).state.heaps = (ascendingInsert s.heaps h').tail ∧
          (s.addPacketCore p).emitted = (ascendingInsert s.heaps h').take 1 ∧
          ∀ x ∈ ascendingInsert s.heaps h', ∀ m ∈ (ascendingInsert s.heaps h').take 1,
            m.heap_cnt ≤ x.heap_cnt))) := by
  have hsc : scanMatch p s.heaps = none := scanMatch_none_iff.mpr hnf
  constructor
  · intro hp
    exact addPacketCore_new_reject hsc hp
  · intro h' hp
    have hcnt : h'.heap_cnt = p.heap_cnt := RecvHeap.addPacket_heap_cnt hp
    have hmem : p.heap_cnt ∉ heapCnts s.heaps := not_mem_heapCnts_of_scanMatch_none hsc
    have hins : insertAt (insertPos s.heaps p.heap_cnt) h' s.heaps = ascendingInsert s.heaps h' :=
      insertAt_eq_ascendingInsert hsort hmem hcnt
    constructor
    · intro hcomp
      exact addPacketCore_new_complete hsc hp hcomp
    · intro hcomp
      have hsorted' : sortedCnts (ascendingInsert s.heaps h') :=
        sorted_ascendingInsert hsort (by rw [hcnt]; exact hmem)
      by_cases hlen : s.max_heaps < (insertAt (insertPos s.heaps p.heap_cnt) h' s.heaps).length
      · have hlen' : s.max_heaps < (ascendingInsert s.heaps h').length := by
          rw [← hins]; exact hlen
        rw [addPacketCore_new_evict hsc hp hcomp hlen, hins]
        refine ⟨rfl, rfl, fun hle => absurd hlen' (by omega), fun _ => ⟨rfl, rfl, ?_⟩⟩
        exact take_one_min hsorted'
      · have hlen' : (ascendingInsert s.heaps h').length ≤ s.max_heaps := by
          rw [← hins]; omega
        rw [addPacketCore_new_insert hsc hp hcomp hlen, hins]
        exact ⟨rfl, rfl, fun _ => ⟨rfl, rfl⟩, fun hgt => absurd hgt (by omega)⟩

/-- Witness for C3 at a one-heap stream and a fresh-count packet. -/
theorem c3_new_heap_dispatch_witness :
    sortedCnts oneHeapStream.heaps ∧
    (∀ h ∈ oneHeapStream.heaps, h.heap_cnt ≠ (pIncomplete 2).heap_cnt) ∧
    (((oneHeapStream.newHeapFor (pIncomplete 2)).addPacket (pIncomplete 2) = none →
        oneHeapStream.addPacketCore (pIncomplete 2) = ⟨oneHeapStream, [], false, false⟩) ∧
    (∀ h', (oneHeapStream.newHeapFor (pIncomplete 2)).addPacket (pIncomplete 2) = some h' →
      (h'.isComplete = true →
        oneHeapStream.addPacketCore (pIncomplete 2) = ⟨oneHeapStream, [h'], true, h'.isEndOfStream⟩) ∧
      (h'.isComplete = false →
        (oneHeapStream.addPacketCore (pIncomplete 2)).result = true ∧
        (oneHeapStream.addPacketCore (pIncomplete 2)).eos = h'.isEndOfStream ∧
        ((ascendingInsert oneHeapStream.heaps h').length ≤ oneHeapStream.max_heaps →
          (oneHeapStream.addPacketCore (pIncomplete 2)).state.heaps = ascendingInsert oneHeapStream.heaps h' ∧
          (oneHeapStream.addPacketCore (pIncomplete 2)).emitted = []) ∧
        (oneHeapStream.max_heaps < (ascendingInsert oneHeapStream.heaps h').length →
          (oneHeapStream.addPacketCore (pIncomplete 2)).state.heaps = (ascendingInsert oneHeapStream.heaps h').tail ∧
          (oneHeapStream.addPacketCore (pIncomplete 2)).emitted = (ascendingInsert oneHeapStream.heaps h').take 1 ∧
          ∀ x ∈ ascendingInsert oneHeapStream.heaps h', ∀ m ∈ (ascendingInsert oneHeapStream.heaps h').take 1,
            m.heap_cnt ≤ x.heap_cnt)))) :=
  ⟨by decide, by decide,
    c3_new_heap_dispatch oneHeapStream (pIncomplete 2) (by decide) (by decide)⟩

/-- C10: a rejected packet (`add_packet` returning `false`) leaves the
stream's observable state unchanged: same live collection, stopped flag,
cap and pool, with no heap emitted and no stop performed. -/
theorem c10_reject_atomic (s : StreamBase) (p : PacketHeader)
    (h : (s.addPacket p).2.2 = false) :
    (s.addPacket p).1 = s ∧ (s.addPacket p).2.1 = [] := by
  have hres : (s.addPacketCore p).result = false := by
    rw [← addPacket_result]; exact h
  have hcore := addPacketCore_reject_state hres
  unfold StreamBase.addPacket
  rw [hcore]
  exact ⟨rfl, rfl⟩

/-- Witness for C10: a duplicate packet is rejected and changes nothing. -/
theorem c10_reject_atomic_witness :
    (oneHeapStream.addPacket (pIncomplete 1)).2.2 = false ∧
    ((oneHeapStream.addPacket (pIncomplete 1)).1 = oneHeapStream ∧
      (oneHeapStream.addPacket (pIncomplete 1)).2.1 = []) :=
  ⟨by decide, c10_reject_atomic oneHeapStream (pIncomplete 1) (by decide)⟩

/-- C1 (code bug): for every `heap_address_bits` the `send::heap`
constructor accepts, the shift count the code computes on `send_heap.cpp`
line 53 (`sizeof(item_pointer_t) - 1 - heap_address_bits`, in `size_t`
arithmetic) is at least 64 — an out-of-range, undefined shift of the 64-bit
`s_item_pointer_t` — and is never the spec's in-range shift count
`pointer_width − 1 − heap_address_bits`.  The code uses the pointer width in
bytes where bits are required (the `8 *` factor is missing). -/
theorem c1_id_check_shift_bug (hab : Int) (hvalid : ¬heapCtorThrows hab) :
    64 ≤ idCheckShiftAmount hab ∧
    idCheckShiftAmount hab ≠ specIdShiftAmount hab ∧
    specIdShiftAmount hab < 64 := by
  have h64 : (2:Int) ^ 64 = 18446744073709551616 := by norm_num
  simp only [heapCtorThrows, itemPointerBytes] at hvalid
  push_neg at hvalid
  obtain ⟨h1, h2, h3⟩ := hvalid
  simp only [idCheckShiftAmount, specIdShiftAmount, itemPointerBytes, h64]
  refine ⟨?_, ?_, ?_⟩ <;> omega

/-- Witness for C1 at `heap_address_bits = 40` (the flavour (64, 40)). -/
theorem c1_id_check_shift_bug_witness :
    ¬heapCtorThrows 40 ∧
    (64 ≤ idCheckShiftAmount 40 ∧
     idCheckShiftAmount 40 ≠ specIdShiftAmount 40 ∧
     specIdShiftAmount 40 < 64) :=
  ⟨by decide, c1_id_check_shift_bug 40 (by decide)⟩

/-- C8: the `send::heap` constructor raises invalid-argument exactly when
`heap_address_bits` is not a positive multiple of 8 strictly below the
pointer width `8 * sizeof(item_pointer_t)`. -/
theorem c8_ctor_validation (hab : Int) :
    heapCtorThrows hab ↔
      ¬(∃ k : Int, 0 < k ∧ hab = 8 * k ∧ hab < 8 * (itemPointerBytes : Int)) := by
  constructor
  · rintro h ⟨k, hk, rfl, hlt⟩
    simp only [heapCtorThrows, itemPointerBytes] at h
    simp only [itemPointerBytes] at hlt
    rcases h with h | h | h <;> omega
  · intro hne
    by_contra hth
    simp only [heapCtorThrows, itemPointerBytes] at hth
    push_neg at hth
    obtain ⟨h1, h2, h3⟩ := hth
    refine hne ⟨hab / 8, by omega, by omega, ?_⟩
    simp only [itemPointerBytes]
    omega

theorem store_bytes_be_length (len v : Nat) :
    (store_bytes_be len v).length = len := by
  simp [store_bytes_be]

theorem store_bytes_be_succ (len v : Nat) :
    store_bytes_be (len + 1) v = (v >>> (8 * len)) % 256 :: store_bytes_be len v := by
  unfold store_bytes_be
  rw [List.range_succ_eq_map]
  simp only [List.map_cons, List.map_map, Nat.add_sub_cancel, Nat.sub_zero]
  congr 1
  apply List.map_congr_left
  intro i hi
  simp only [Function.comp]
  congr 2
  omega

theorem bytesToNatBE_foldl (l : List Nat) : ∀ acc : Nat,
    l.foldl (fun a b => a * 256 + b % 256) acc = acc * 256 ^ l.length + bytesToNatBE l := by
  induction l with
  | nil => intro acc; simp [bytesToNatBE]
  | cons b t ih =>
    intro acc
    simp only [List.foldl_cons, List.length_cons, bytesToNatBE] at ih ⊢
    rw [ih (acc * 256 + b % 256), ih (0 * 256 + b % 256)]
    ring

theorem bytesToNatBE_store_bytes_be (len v : Nat) :
    bytesToNatBE (store_bytes_be len v) = v % 2 ^ (8 * len) := by
  induction len generalizing v with
  | zero => simp [store_bytes_be, bytesToNatBE, Nat.mod_one]
  | succ n ih =>
    rw [store_bytes_be_succ]
    simp only [bytesToNatBE, List.foldl_cons]
    rw [bytesToNatBE_foldl]
    simp only [store_bytes_be_length]
    rw [ih v]
    have h256 : (256:Nat) ^ n = 2 ^ (8 * n) := by
      rw [Nat.pow_mul]
    have hsplit : v % 2 ^ (8 * (n + 1)) = v % 2 ^ (8 * n) + 2 ^ (8 * n) * (v / 2 ^ (8 * n) % 256) := by
      rw [show 8 * (n + 1) = 8 * n + 8 by ring, pow_add]
      rw [Nat.mod_mul]
      norm_num
    rw [hsplit, Nat.shiftRight_eq_div_pow, h256]
    have hmm : v / 2 ^ (8 * n) % 256 % 256 = v / 2 ^ (8 * n) % 256 :=
      Nat.mod_mod_of_dvd _ dvd_rfl
    rw [hmm]
    ring

theorem shape_size_pos (bug hab : Nat) : 0 < shape_size bug hab := by
  unfold shape_size
  split <;> omega

/-- C7: `field_size` is 4 under `DESCRIPTOR_WIDTHS` and
`pointer_width_bytes + 1 − heap_address_bits/8` otherwise; `shape_size` is 8
under `DESCRIPTOR_WIDTHS` and `1 + heap_address_bits/8` otherwise; a shape
entry is `shape_size` bytes whose first byte is 2 for a variable dimension
under `SHAPE_BIT_1`, 1 for a variable dimension otherwise, and 0 for a fixed
dimension, and whose remaining bytes decode (big-endian) to the unsigned
dimension, or to zero for a variable dimension. -/
theorem c7_descriptor_widths (bug hab : Nat) (dim : Int)
    (hfit : dim.toNat < 2 ^ (8 * (shape_size bug hab - 1))) :
    (bug &&& BUG_COMPAT_DESCRIPTOR_WIDTHS ≠ 0 →
      field_size bug hab = 4 ∧ shape_size bug hab = 8) ∧
    (bug &&& BUG_COMPAT_DESCRIPTOR_WIDTHS = 0 →
      field_size bug hab = itemPointerBytes + 1 - hab / 8 ∧
      shape_size bug hab = 1 + hab / 8) ∧
    (encodeShapeEntry bug hab dim).length = shape_size bug hab ∧
    (encodeShapeEntry bug hab dim).head? =
      some (if dim < 0 then (if bug &&& BUG_COMPAT_SHAPE_BIT_1 ≠ 0 then 2 else 1) else 0) ∧
    bytesToNatBE (encodeShapeEntry bug hab dim).tail =
      (if dim < 0 then 0 else dim.toNat) := by
  have hpos := shape_size_pos bug hab
  refine ⟨?_, ?_, ?_, ?_, ?_⟩
  · intro hbit; exact ⟨by simp [field_size, hbit], by simp [shape_size, hbit]⟩
  · intro hbit; exact ⟨by simp [field_size, hbit], by simp [shape_size, hbit]⟩
  · simp only [encodeShapeEntry, List.length_cons, store_bytes_be_length]
    omega
  · simp [encodeShapeEntry]
  · simp only [encodeShapeEntry, List.tail_cons]
    rw [bytesToNatBE_store_bytes_be]
    by_cases hdim : dim < 0
    · simp [hdim, Nat.zero_mod, Nat.pos_pow_of_pos]
    · simp only [hdim, if_false]
      exact Nat.mod_eq_of_lt (by simpa [hdim] using hfit)

/-- Witness for C7 with the default flavour (64, 48) and dimension 5. -/
theorem c7_descriptor_widths_witness :
    (Int.toNat 5 < 2 ^ (8 * (shape_size 0 48 - 1))) ∧
    ((0 &&& BUG_COMPAT_DESCRIPTOR_WIDTHS ≠ 0 →
      field_size 0 48 = 4 ∧ shape_size 0 48 = 8) ∧
    (0 &&& BUG_COMPAT_DESCRIPTOR_WIDTHS = 0 →
      field_size 0 48 = itemPointerBytes + 1 - 48 / 8 ∧
      shape_size 0 48 = 1 + 48 / 8) ∧
    (encodeShapeEntry 0 48 5).length = shape_size 0 48 ∧
    (encodeShapeEntry 0 48 5).head? =
      some (if (5:Int) < 0 then (if 0 &&& BUG_COMPAT_SHAPE_BIT_1 ≠ 0 then 2 else 1) else 0) ∧
    bytesToNatBE (encodeShapeEntry 0 48 5).tail =
      (if (5:Int) < 0 then 0 else Int.toNat 5)) :=
  ⟨by decide, c7_descriptor_widths 0 48 5 (by decide)⟩

theorem memToStream_nil (s : StreamBase) : memToStream s [] = (s, [], 0) := by
  unfold memToStream
  simp

theorem memToStream_stopped (s : StreamBase) (buf : List Nat) (h : s.stopped = true) :
    memToStream s buf = (s, [], 0) := by
  unfold memToStream
  simp [h]

theorem memToStream_decode_none (s : StreamBase) (buf : List Nat)
    (h : decodePacket buf = none) : memToStream s buf = (s, [], 0) := by
  unfold memToStream
  split
  · rfl
  · split
    · rfl
    · simp only [h]

theorem memToStream_decode_some (s : StreamBase) (buf : List Nat)
    (p : PacketHeader) (size : Nat)
    (h0 : buf ≠ []) (h1 : s.stopped = false)
    (h2 : decodePacket buf = some (p, size)) (h3 : 0 < size) :
    memToStream s buf =
      ((memToStream (s.addPacket p).1 (buf.drop size)).1,
        (s.addPacket p).2.1 ++ (memToStream (s.addPacket p).1 (buf.drop size)).2.1,
        size + (memToStream (s.addPacket p).1 (buf.drop size)).2.2) := by
  conv =>
    lhs
    rw [memToStream]
  simp only [dif_neg h0, h1, Bool.false_eq_true, if_false, h2, dif_pos h3]

theorem chunks_nil : chunks [] = [] := by
  unfold chunks
  simp

theorem chunks_decode_none (buf : List Nat) (h : decodePacket buf = none) :
    chunks buf = [] := by
  unfold chunks
  split
  · rfl
  · simp only [h]

theorem chunks_decode_some (buf : List Nat) (p : PacketHeader) (size : Nat)
    (h0 : buf ≠ []) (h2 : decodePacket buf = some (p, size)) (h3 : 0 < size) :
    chunks buf = (p, size) :: chunks (buf.drop size) := by
  conv =>
    lhs
    rw [chunks]
  simp only [dif_neg h0, h2, dif_pos h3]

theorem memToStream_decode_nopos (s : StreamBase) (buf : List Nat)
    (p : PacketHeader) (size : Nat)
    (h0 : buf ≠ []) (h1 : s.stopped = false)
    (h2 : decodePacket buf = some (p, size)) (h3 : ¬0 < size) :
    memToStream s buf = (s, [], 0) := by
  conv =>
    lhs
    rw [memToStream]
  simp only [dif_neg h0, h1, Bool.false_eq_true, if_false, h2, dif_neg h3]

theorem chunks_decode_nopos (buf : List Nat) (p : PacketHeader) (size : Nat)
    (h0 : buf ≠ []) (h2 : decodePacket buf = some (p, size)) (h3 : ¬0 < size) :
    chunks buf = [] := by
  conv =>
    lhs
    rw [chunks]
  simp only [dif_neg h0, h2, dif_neg h3]

theorem memToStream_eq_processChunks_aux : ∀ (n : Nat) (buf : List Nat), buf.length ≤ n →
    ∀ s, memToStream s buf = processChunks s (chunks buf) := by
  intro n
  induction n with
  | zero =>
    intro buf hb s
    have hnil : buf = [] := by
      cases buf with
      | nil => rfl
      | cons a t => simp at hb
    subst hnil
    rw [memToStream_nil, chunks_nil]
    rfl
  | succ m ih =>
    intro buf hb s
    by_cases hnil : buf = []
    · subst hnil
      rw [memToStream_nil, chunks_nil]
      rfl
    · cases hdec : decodePacket buf with
      | none =>
        rw [memToStream_decode_none s buf hdec, chunks_decode_none buf hdec]
        rfl
      | some v =>
        obtain ⟨p, size⟩ := v
        by_cases hsz : 0 < size
        · rw [chunks_decode_some buf p size hnil hdec hsz]
          cases hstop : s.stopped with
          | true =>
            rw [memToStream_stopped s buf hstop]
            simp [processChunks, hstop]
          | false =>
            rw [memToStream_decode_some s buf p size hnil hstop hdec hsz]
            have hlen : (buf.drop size).length ≤ m := by
              rw [List.length_drop]
              have hpos : 0 < buf.length := List.length_pos.mpr hnil
              omega
            rw [ih (buf.drop size) hlen (s.addPacket p).1]
            simp [processChunks, hstop]
        · rw [chunks_decode_nopos buf p size hnil hdec hsz]
          cases hstop : s.stopped with
          | true => rw [memToStream_stopped s buf hstop]; rfl
          | false => rw [memToStream_decode_nopos s buf p size hnil hstop hdec hsz]; rfl

/-- C9 (amended): `mem_to_stream` decodes packets sequentially from the
front and passes each successfully decoded packet to `add_packet` whether or
not the stream accepts it (a rejection does not stop the scan); scanning
stops at the first decode failure, at the end of the buffer, or as soon as
the stream has become stopped (e.g. by an accepted end-of-stream packet);
the returned pointer is just past the last packet actually processed.
Formally, `mem_to_stream` equals the chunked scan: packet boundaries are
fixed by the buffer alone (`chunks`), and the stream processes the longest
prefix of those packets during which it is not stopped (`processChunks`). -/
theorem c9_mem_to_stream_chunked (s : StreamBase) (buf : List Nat) :
    memToStream s buf = processChunks s (chunks buf) :=
  memToStream_eq_processChunks_aux buf.length buf le_rfl s

/-- A 48-byte wire packet for heap 1, flavour (64, 48): header with magic
`0x5304` and 5 item pointers — `HEAP_CNT = 1`, `PAYLOAD_OFFSET = 0`,
`PAYLOAD_LENGTH = 0`, `HEAP_LENGTH = 0`, and `STREAM_CTRL` with the
end-of-stream value — and no payload.  The heap completes immediately and
stops the stream. -/
def bufA : List Nat :=
  [0x53, 0x04, 0x02, 0x06, 0, 0, 0, 5] ++
  [0x80, 0x01, 0, 0, 0, 0, 0, 1] ++
  [0x80, 0x03, 0, 0, 0, 0, 0, 0] ++
  [0x80, 0x04, 0, 0, 0, 0, 0, 0] ++
  [0x80, 0x02, 0, 0, 0, 0, 0, 0] ++
  [0x80, 0x06, 0, 0, 0, 0, 0, 2]

/-- A 32-byte wire packet for heap 2, flavour (64, 48): `HEAP_CNT = 2`,
`PAYLOAD_OFFSET = 0`, `PAYLOAD_LENGTH = 0`, no payload.  It decodes
successfully. -/
def bufB : List Nat :=
  [0x53, 0x04, 0x02, 0x06, 0, 0, 0, 3] ++
  [0x80, 0x01, 0, 0, 0, 0, 0, 2] ++
  [0x80, 0x03, 0, 0, 0, 0, 0, 0] ++
  [0x80, 0x04, 0, 0, 0, 0, 0, 0]

/-- The decoded form of `bufA`. -/
def pktA : PacketHeader :=
  { heap_cnt := 1, heap_length := 0, payload_offset := 0, payload_length := 0,
    heap_address_bits := 48, pointers := [⟨true, 6, 2⟩], payload := [] }

/-- C9 counterexample: on `bufA ++ bufB` (80 bytes, two successfully
decodable packets, starting from a non-stopped stream) the scan consumes
only the first 48 bytes: the second packet decodes successfully at offset 48
yet is never decoded or passed to `add_packet`, because the first packet
stopped the stream.  This refutes the claim that the scan stops only at the
first packet for which `decode_packet` fails. -/
theorem c9_scan_stops_early :
    (memToStream (mkStreamBase 0 4) (bufA ++ bufB)).2.2 = 48 ∧
    decodePacket ((bufA ++ bufB).drop 48) ≠ none ∧
    (mkStreamBase 0 4).stopped = false ∧
    (bufA ++ bufB).length = 80 := by
  have hdec : decodePacket (bufA ++ bufB) = some (pktA, 48) := by decide
  have hstep := memToStream_decode_some (mkStreamBase 0 4) (bufA ++ bufB) pktA 48
    (by decide) rfl hdec (by decide)
  refine ⟨?_, by decide, rfl, by decide⟩
  rw [hstep]
  have hstop2 : ((mkStreamBase 0 4).addPacket pktA).1.stopped = true := by decide
  rw [memToStream_stopped _ _ hstop2]
  rfl

end Spead
